import Mathlib

/-!
Verification of the passkey-to-blockchain signature adaptation layer of
`lazorkit-starter-hero` (src/src/context/index.ts, LazorContext module).

Byte strings are modelled as `List Nat` with every element `< 256`
(the invariant a JS `Uint8Array` provides by construction).  Each
definition below is a direct shallow embedding of the corresponding
TypeScript function; comments cite the source lines.
-/

deriving instance DecidableEq for Except

namespace LazorKit

/-- Predicate stating that a list is a genuine byte string: every entry
fits one byte, as a JS `Uint8Array` guarantees. -/
def ValidBytes (l : List Nat) : Prop := ∀ x ∈ l, x < 256

instance : DecidablePred ValidBytes := fun l =>
  inferInstanceAs (Decidable (∀ x ∈ l, x < 256))

/-- Value of a byte list interpreted as a big-endian unsigned integer. -/
def fromBE (l : List Nat) : Nat := l.foldl (fun acc b => acc * 256 + b) 0

/-- Value of a byte list interpreted as a little-endian unsigned integer. -/
def fromLE : List Nat → Nat
  | [] => 0
  | b :: bs => b + 256 * fromLE bs

/-- Fixed-width big-endian encoding of a natural number (the low `w` bytes). -/
def toBE : Nat → Nat → List Nat
  | 0, _ => []
  | w + 1, n => toBE w (n / 256) ++ [n % 256]

/-- Fixed-width little-endian encoding of a natural number, matching
`BN.toArrayLike(_, 'le', w)` for values that fit. -/
def toLE : Nat → Nat → List Nat
  | 0, _ => []
  | w + 1, n => n % 256 :: toLE w (n / 256)

/-- Embedding of `compareBigEndian` (index.ts lines 290-296): lexicographic
byte comparison returning 1, -1 or 0.  The source iterates over the indices
of `a`; when `b` is exhausted first, both JS comparisons against `undefined`
are false, so the loop falls through to 0. -/
def compareBigEndian : List Nat → List Nat → Int
  | [], _ => 0
  | _ :: _, [] => 0
  | a :: as, b :: bs =>
    if a > b then 1
    else if a < b then -1
    else compareBigEndian as bs

/-- Little-endian per-byte subtraction with borrow, the loop body of
`subtractBigEndian` (index.ts lines 302-318) read from the least
significant byte upward.  `diff = a[i] - b[i] - borrow`; on underflow the
stored byte is `diff + 256` and the borrow is carried.  When `b` runs out
the JS code reads `undefined`, the difference is NaN, `NaN < 0` is false
and `Uint8Array` stores NaN as 0 with no borrow. -/
def subLE : List Nat → List Nat → Nat → List Nat
  | [], _, _ => []
  | a :: as, b :: bs, borrow =>
    if a < b + borrow then (a + 256 - b - borrow) :: subLE as bs 1
    else (a - b - borrow) :: subLE as bs 0
  | _ :: as, [], _ => 0 :: subLE as [] 0

/-- Embedding of `subtractBigEndian` (index.ts lines 302-318): big-endian
`a - b` assuming `a >= b`, per-byte borrow propagation from the last byte
to the first. -/
def subtractBigEndian (a b : List Nat) : List Nat :=
  (subLE a.reverse b.reverse 0).reverse

/-- The secp256r1 group order `n` (index.ts lines 141-146). -/
def SECP256R1_ORDER : List Nat :=
  [0xff, 0xff, 0xff, 0xff, 0x00, 0x00, 0x00, 0x00,
   0xff, 0xff, 0xff, 0xff, 0xff, 0xff, 0xff, 0xff,
   0xbc, 0xe6, 0xfa, 0xad, 0xa7, 0x17, 0x9e, 0x84,
   0xf3, 0xb9, 0xca, 0xc2, 0xfc, 0x63, 0x25, 0x51]

/-- Half the secp256r1 group order, the low-S threshold
(index.ts lines 149-154). -/
def SECP256R1_HALF_ORDER : List Nat :=
  [0x7f, 0xff, 0xff, 0xff, 0x80, 0x00, 0x00, 0x00,
   0x7f, 0xff, 0xff, 0xff, 0xff, 0xff, 0xff, 0xff,
   0xde, 0x73, 0x7d, 0x56, 0xd3, 0x8b, 0xcf, 0x42,
   0x79, 0xdc, 0xe5, 0x61, 0x7e, 0x31, 0x92, 0xa8]

/-- Embedding of `normalizeSignatureS` (index.ts lines 328-354).  A
signature that is not exactly 64 bytes raises `SIGNATURE_FAILED`; the
r part is `slice(0, 32)`, the s part `slice(32, 64)`; if
`compareBigEndian(s, SECP256R1_HALF_ORDER) > 0` the s part is replaced by
`SECP256R1_ORDER - s` computed with `subtractBigEndian`. -/
def normalizeSignatureS (signature : List Nat) : Except String (List Nat) :=
  if signature.length ≠ 64 then
    .error "Invalid signature length: expected 64"
  else
    let r := signature.take 32
    let s := signature.drop 32
    if 0 < compareBigEndian s SECP256R1_HALF_ORDER then
      let normalizedS := subtractBigEndian SECP256R1_ORDER s
      .ok (r ++ normalizedS)
    else
      .ok signature

/-! Arithmetic facts about the byte-level encodings. -/

theorem foldl_be_acc (l : List Nat) (acc : Nat) :
    l.foldl (fun a b => a * 256 + b) acc = acc * 256 ^ l.length + fromBE l := by
  induction l generalizing acc with
  | nil => simp [fromBE]
  | cons b bs ih =>
    have e1 : fromBE (b :: bs) = List.foldl (fun a b => a * 256 + b) (0 * 256 + b) bs := rfl
    have e2 : List.foldl (fun a b => a * 256 + b) acc (b :: bs)
        = List.foldl (fun a b => a * 256 + b) (acc * 256 + b) bs := rfl
    rw [e2, ih (acc * 256 + b), e1, ih (0 * 256 + b), List.length_cons]
    ring

theorem fromBE_cons (b : Nat) (bs : List Nat) :
    fromBE (b :: bs) = b * 256 ^ bs.length + fromBE bs := by
  have h := foldl_be_acc bs b
  simpa [fromBE] using h

theorem fromBE_append (xs ys : List Nat) :
    fromBE (xs ++ ys) = fromBE xs * 256 ^ ys.length + fromBE ys := by
  simp only [fromBE, List.foldl_append]
  exact foldl_be_acc ys (List.foldl (fun a b => a * 256 + b) 0 xs)

theorem fromBE_lt (l : List Nat) (h : ValidBytes l) : fromBE l < 256 ^ l.length := by
  induction l with
  | nil => simp [fromBE]
  | cons b bs ih =>
    have hb : b < 256 := h b (by simp)
    have ih' := ih (fun x hx => h x (by simp [hx]))
    rw [fromBE_cons, List.length_cons, pow_succ]
    calc b * 256 ^ bs.length + fromBE bs
        < b * 256 ^ bs.length + 256 ^ bs.length := by omega
      _ = (b + 1) * 256 ^ bs.length := by ring
      _ ≤ 256 * 256 ^ bs.length := Nat.mul_le_mul_right _ (by omega)
      _ = 256 ^ bs.length * 256 := by ring

theorem fromLE_append_singleton (xs : List Nat) (b : Nat) :
    fromLE (xs ++ [b]) = fromLE xs + b * 256 ^ xs.length := by
  induction xs with
  | nil => simp [fromLE]
  | cons x l ih =>
    show fromLE (x :: (l ++ [b])) = fromLE (x :: l) + b * 256 ^ (x :: l).length
    rw [fromLE, fromLE, ih, List.length_cons, pow_succ]
    ring

theorem fromBE_eq_fromLE_reverse (l : List Nat) : fromBE l = fromLE l.reverse := by
  induction l with
  | nil => simp [fromBE, fromLE]
  | cons b bs ih =>
    rw [fromBE_cons, List.reverse_cons, fromLE_append_singleton, ih,
      List.length_reverse]
    ring

theorem valid_reverse {l : List Nat} (h : ValidBytes l) : ValidBytes l.reverse :=
  fun z hz => h z (List.mem_reverse.mp hz)

theorem fromLE_lt (l : List Nat) (h : ValidBytes l) : fromLE l < 256 ^ l.length := by
  have h1 : fromLE l = fromBE l.reverse := by
    rw [fromBE_eq_fromLE_reverse, List.reverse_reverse]
  have h2 := fromBE_lt l.reverse (valid_reverse h)
  rw [List.length_reverse] at h2
  omega

theorem lt_of_lex_lt (x y : Nat) (as bs : List Nat) (hlen : as.length = bs.length)
    (hFa : fromBE as < 256 ^ as.length) (hxy : x < y) :
    fromBE (x :: as) < fromBE (y :: bs) := by
  rw [fromBE_cons, fromBE_cons, ← hlen]
  calc x * 256 ^ as.length + fromBE as
      < x * 256 ^ as.length + 256 ^ as.length := by omega
    _ = (x + 1) * 256 ^ as.length := by ring
    _ ≤ y * 256 ^ as.length := Nat.mul_le_mul_right _ (by omega)
    _ ≤ y * 256 ^ as.length + fromBE bs := Nat.le_add_right _ _

theorem compareBigEndian_pos_iff (a : List Nat) (ha : ValidBytes a) :
    ∀ b : List Nat, b.length = a.length → ValidBytes b →
    (0 < compareBigEndian a b ↔ fromBE b < fromBE a) := by
  induction a with
  | nil =>
    intro b hlen _
    have : b = [] := List.length_eq_zero.mp (by simpa using hlen)
    subst this
    simp [compareBigEndian]
  | cons x as ih =>
    intro b hlen hb
    cases b with
    | nil => simp at hlen
    | cons y bs =>
      have hlen' : bs.length = as.length := by simpa using hlen
      have hx : x < 256 := ha x (by simp)
      have hy : y < 256 := hb y (by simp)
      have ha' : ValidBytes as := fun z hz => ha z (by simp [hz])
      have hb' : ValidBytes bs := fun z hz => hb z (by simp [hz])
      have hFa : fromBE as < 256 ^ as.length := fromBE_lt as ha'
      have hFb : fromBE bs < 256 ^ bs.length := fromBE_lt bs hb'
      rcases Nat.lt_trichotomy y x with hxy | hxy | hxy
      · have h1 : compareBigEndian (x :: as) (y :: bs) = 1 := by
          simp [compareBigEndian, hxy]
        have h2 : fromBE (y :: bs) < fromBE (x :: as) :=
          lt_of_lex_lt y x bs as hlen' hFb hxy
        rw [h1]
        exact ⟨fun _ => h2, fun _ => Int.zero_lt_one⟩
      · have h1 : compareBigEndian (x :: as) (y :: bs) = compareBigEndian as bs := by
          simp [compareBigEndian, hxy, Nat.lt_irrefl]
        rw [h1, ih ha' bs hlen' hb', fromBE_cons, fromBE_cons, hlen', hxy]
        simp
      · have h1 : compareBigEndian (x :: as) (y :: bs) = -1 := by
          simp [compareBigEndian, hxy, Nat.lt_asymm hxy]
        have h2 : fromBE (x :: as) < fromBE (y :: bs) :=
          lt_of_lex_lt x y as bs hlen'.symm hFa hxy
        rw [h1]
        constructor
        · intro h; exact absurd h (by norm_num)
        · intro h; omega

theorem subLE_length (a : List Nat) : ∀ (b : List Nat) (c : Nat),
    (subLE a b c).length = a.length := by
  induction a with
  | nil => intro b c; cases b <;> simp [subLE]
  | cons x as ih =>
    intro b c
    cases b with
    | nil => simp [subLE, ih]
    | cons y bs =>
      simp only [subLE]
      split <;> simp [ih]

theorem subLE_valid (a : List Nat) (ha : ValidBytes a) :
    ∀ (b : List Nat) (c : Nat), c ≤ 1 → ValidBytes (subLE a b c) := by
  induction a with
  | nil => intro b c _; cases b <;> intro x hx <;> simp [subLE] at hx
  | cons x as ih =>
    have hx : x < 256 := ha x (by simp)
    have ha' : ValidBytes as := fun z hz => ha z (by simp [hz])
    intro b c hc
    cases b with
    | nil =>
      intro z hz
      simp only [subLE, List.mem_cons] at hz
      rcases hz with rfl | hz
      · omega
      · exact ih ha' [] 0 (by omega) z hz
    | cons y bs =>
      intro z hz
      simp only [subLE] at hz
      split at hz <;> simp only [List.mem_cons] at hz <;>
        rcases hz with rfl | hz
      · omega
      · exact ih ha' bs 1 (by omega) z hz
      · omega
      · exact ih ha' bs 0 (by omega) z hz

theorem subLE_spec (a : List Nat) (ha : ValidBytes a) :
    ∀ (b : List Nat) (c : Nat), b.length = a.length → ValidBytes b → c ≤ 1 →
    fromLE (subLE a b c) + fromLE b + c
      = fromLE a + (if fromLE a < fromLE b + c then 256 ^ a.length else 0) := by
  induction a with
  | nil =>
    intro b c hlen _ hc
    have : b = [] := List.length_eq_zero.mp (by simpa using hlen)
    subst this
    simp only [subLE, fromLE, List.length_nil, pow_zero]
    split <;> omega
  | cons x as ih =>
    intro b c hlen hb hc
    cases b with
    | nil => simp at hlen
    | cons y bs =>
      have hlen' : bs.length = as.length := by simpa using hlen
      have hx : x < 256 := ha x (by simp)
      have hy : y < 256 := hb y (by simp)
      have ha' : ValidBytes as := fun z hz => ha z (by simp [hz])
      have hb' : ValidBytes bs := fun z hz => hb z (by simp [hz])
      have hFa : fromLE as < 256 ^ as.length := fromLE_lt as ha'
      have hFb : fromLE bs < 256 ^ bs.length := fromLE_lt bs hb'
      rw [hlen'] at hFb
      simp only [subLE, List.length_cons, pow_succ]
      split
      · -- borrow case: x < y + c
        have IH := ih ha' bs 1 hlen' hb' (by omega)
        simp only [fromLE]
        split at IH <;> split <;> omega
      · -- no borrow: x ≥ y + c
        have IH := ih ha' bs 0 hlen' hb' (by omega)
        simp only [fromLE]
        split at IH <;> split <;> omega

theorem subtractBigEndian_length (a b : List Nat) :
    (subtractBigEndian a b).length = a.length := by
  simp [subtractBigEndian, subLE_length]

theorem subtractBigEndian_valid (a b : List Nat) (ha : ValidBytes a) :
    ValidBytes (subtractBigEndian a b) :=
  valid_reverse (subLE_valid a.reverse (valid_reverse ha) b.reverse 0 (by omega))

theorem subtractBigEndian_spec (a b : List Nat) (hlen : b.length = a.length)
    (ha : ValidBytes a) (hb : ValidBytes b) (hba : fromBE b ≤ fromBE a) :
    fromBE (subtractBigEndian a b) = fromBE a - fromBE b := by
  have h := subLE_spec a.reverse (valid_reverse ha) b.reverse 0
    (by simpa using hlen) (valid_reverse hb) (by omega)
  rw [← fromBE_eq_fromLE_reverse, ← fromBE_eq_fromLE_reverse] at h
  have hval : fromBE (subtractBigEndian a b) = fromLE (subLE a.reverse b.reverse 0) := by
    rw [subtractBigEndian, fromBE_eq_fromLE_reverse, List.reverse_reverse]
  rw [hval]
  rw [if_neg (by omega)] at h
  omega

/-! Properties of the canonical fixed-width big-endian encoder `toBE`. -/

theorem toBE_length (w n : Nat) : (toBE w n).length = w := by
  induction w generalizing n with
  | zero => simp [toBE]
  | succ w ih => simp [toBE, ih]

theorem toBE_valid (w n : Nat) : ValidBytes (toBE w n) := by
  induction w generalizing n with
  | zero => intro x hx; simp [toBE] at hx
  | succ w ih =>
    intro x hx
    simp only [toBE, List.mem_append, List.mem_singleton] at hx
    rcases hx with hx | rfl
    · exact ih (n / 256) x hx
    · exact Nat.mod_lt _ (by omega)

theorem fromBE_toBE (w n : Nat) : fromBE (toBE w n) = n % 256 ^ w := by
  induction w generalizing n with
  | zero => simp [toBE, fromBE, Nat.mod_one]
  | succ w ih =>
    rw [toBE, fromBE_append, ih, List.length_singleton, pow_one]
    have h1 : fromBE [n % 256] = n % 256 := by simp [fromBE]
    have h2 : n % 256 ^ (w + 1) = n % 256 + 256 * (n / 256 % 256 ^ w) := by
      rw [pow_succ']
      exact Nat.mod_mul
    rw [h1, h2]
    ring

theorem eq_of_fromBE_eq (a : List Nat) (ha : ValidBytes a) :
    ∀ b : List Nat, b.length = a.length → ValidBytes b →
    fromBE a = fromBE b → a = b := by
  induction a with
  | nil =>
    intro b hlen _ _
    exact (List.length_eq_zero.mp (by simpa using hlen)).symm
  | cons x as ih =>
    intro b hlen hb hv
    cases b with
    | nil => simp at hlen
    | cons y bs =>
      have hlen' : bs.length = as.length := by simpa using hlen
      have ha' : ValidBytes as := fun z hz => ha z (by simp [hz])
      have hb' : ValidBytes bs := fun z hz => hb z (by simp [hz])
      have hFa : fromBE as < 256 ^ as.length := fromBE_lt as ha'
      have hFb : fromBE bs < 256 ^ bs.length := fromBE_lt bs hb'
      rw [hlen'] at hFb
      rw [fromBE_cons, fromBE_cons, hlen', Nat.mul_comm x _, Nat.mul_comm y _] at hv
      have hMpos : 0 < 256 ^ as.length := Nat.pos_pow_of_pos _ (by omega)
      have d1 : (256 ^ as.length * x + fromBE as) / 256 ^ as.length = x := by
        rw [Nat.mul_add_div hMpos, Nat.div_eq_of_lt hFa]
        omega
      have d2 : (256 ^ as.length * y + fromBE bs) / 256 ^ as.length = y := by
        rw [Nat.mul_add_div hMpos, Nat.div_eq_of_lt hFb]
        omega
      have hxy : x = y := by rw [← d1, ← d2, hv]
      subst hxy
      have hAB : fromBE as = fromBE bs := Nat.add_left_cancel hv
      rw [ih ha' bs hlen' hb' hAB]

/-! Facts about the curve-order constants. -/

theorem order_length : SECP256R1_ORDER.length = 32 := by decide

theorem order_valid : ValidBytes SECP256R1_ORDER := by decide

theorem half_length : SECP256R1_HALF_ORDER.length = 32 := by decide

theorem half_valid : ValidBytes SECP256R1_HALF_ORDER := by decide

theorem order_eq_two_half_add_one :
    fromBE SECP256R1_ORDER = 2 * fromBE SECP256R1_HALF_ORDER + 1 := by decide

theorem half_eq_order_div_two :
    fromBE SECP256R1_ORDER / 2 = fromBE SECP256R1_HALF_ORDER := by decide

/-! Claim theorems about `normalizeSignatureS` and `subtractBigEndian`. -/

/-- C1: for every 64-byte signature whose s component (bytes 32..63, read
big-endian) is below the curve order, `normalizeSignatureS` succeeds and the
s component of its output is at most `ORDER / 2`. -/
theorem c1_normalize_low_s (sig : List Nat) (hlen : sig.length = 64)
    (hval : ValidBytes sig)
    (hlt : fromBE (sig.drop 32) < fromBE SECP256R1_ORDER) :
    ∃ out, normalizeSignatureS sig = .ok out ∧
      fromBE (out.drop 32) ≤ fromBE SECP256R1_ORDER / 2 := by
  have hslen : (sig.drop 32).length = 32 := by simp [hlen]
  have hsval : ValidBytes (sig.drop 32) := fun z hz => hval z (List.drop_subset _ _ hz)
  have hcmp := compareBigEndian_pos_iff (sig.drop 32) hsval SECP256R1_HALF_ORDER
    (by rw [hslen]; decide) half_valid
  simp only [normalizeSignatureS, hlen]
  rw [if_neg (by omega)]
  by_cases hc : 0 < compareBigEndian (sig.drop 32) SECP256R1_HALF_ORDER
  · rw [if_pos hc]
    refine ⟨_, rfl, ?_⟩
    have htake : (sig.take 32).length = 32 := by simp [hlen]
    have hdrop : ((sig.take 32) ++ subtractBigEndian SECP256R1_ORDER (sig.drop 32)).drop 32
        = subtractBigEndian SECP256R1_ORDER (sig.drop 32) := by
      have h := List.drop_left (sig.take 32) (subtractBigEndian SECP256R1_ORDER (sig.drop 32))
      rw [htake] at h
      exact h
    rw [hdrop]
    have hsub := subtractBigEndian_spec SECP256R1_ORDER (sig.drop 32)
      (by rw [hslen, order_length]) order_valid hsval (le_of_lt hlt)
    have hgt : fromBE SECP256R1_HALF_ORDER < fromBE (sig.drop 32) := hcmp.mp hc
    rw [hsub, half_eq_order_div_two]
    have hO := order_eq_two_half_add_one
    omega
  · rw [if_neg hc]
    refine ⟨sig, rfl, ?_⟩
    have h2 : ¬ (fromBE SECP256R1_HALF_ORDER < fromBE (sig.drop 32)) :=
      fun h => hc (hcmp.mpr h)
    rw [half_eq_order_div_two]
    omega

/-- Witness for C1 at the all-zero 64-byte signature. -/
theorem c1_normalize_low_s_witness :
    (List.replicate 64 0 : List Nat).length = 64 ∧
    ValidBytes (List.replicate 64 0) ∧
    fromBE ((List.replicate 64 0 : List Nat).drop 32) < fromBE SECP256R1_ORDER ∧
    ∃ out, normalizeSignatureS (List.replicate 64 0) = .ok out ∧
      fromBE (out.drop 32) ≤ fromBE SECP256R1_ORDER / 2 :=
  ⟨by decide, by decide, by decide,
    c1_normalize_low_s _ (by decide) (by decide) (by decide)⟩

/-- C3 counterexample: for the syntactically valid 64-byte signature whose
s component is 2^256 - 1 (all bytes 0xff, which exceeds the curve order),
applying `normalizeSignatureS` twice does not equal applying it once: the
first application wraps modulo 2^256 and yields s = ORDER + 1, and the
second application maps that back to 2^256 - 1. -/
theorem c3_idempotence_counterexample :
    (normalizeSignatureS (List.replicate 32 0 ++ List.replicate 32 0xff)).bind
        normalizeSignatureS
      ≠ normalizeSignatureS (List.replicate 32 0 ++ List.replicate 32 0xff) := by
  decide

/-- C3 (amended): for every 64-byte signature whose s component is at most
the curve order, `normalizeSignatureS` is idempotent. -/
theorem c3_normalize_idempotent (sig : List Nat) (hlen : sig.length = 64)
    (hval : ValidBytes sig)
    (hle : fromBE (sig.drop 32) ≤ fromBE SECP256R1_ORDER) :
    (normalizeSignatureS sig).bind normalizeSignatureS = normalizeSignatureS sig := by
  have hslen : (sig.drop 32).length = 32 := by simp [hlen]
  have hsval : ValidBytes (sig.drop 32) := fun z hz => hval z (List.drop_subset _ _ hz)
  have hcmp := compareBigEndian_pos_iff (sig.drop 32) hsval SECP256R1_HALF_ORDER
    (by rw [hslen]; decide) half_valid
  have htake : (sig.take 32).length = 32 := by simp [hlen]
  by_cases hc : 0 < compareBigEndian (sig.drop 32) SECP256R1_HALF_ORDER
  · have h1 : normalizeSignatureS sig
        = .ok (sig.take 32 ++ subtractBigEndian SECP256R1_ORDER (sig.drop 32)) := by
      simp only [normalizeSignatureS, hlen]
      rw [if_neg (by omega), if_pos hc]
    set s' := subtractBigEndian SECP256R1_ORDER (sig.drop 32) with hs'
    have hs'len : s'.length = 32 := by
      rw [hs', subtractBigEndian_length, order_length]
    have hs'val : ValidBytes s' := subtractBigEndian_valid _ _ order_valid
    have hs'val32 : fromBE s' = fromBE SECP256R1_ORDER - fromBE (sig.drop 32) := by
      rw [hs']
      exact subtractBigEndian_spec SECP256R1_ORDER (sig.drop 32)
        (by rw [hslen, order_length]) order_valid hsval hle
    have hgt : fromBE SECP256R1_HALF_ORDER < fromBE (sig.drop 32) := hcmp.mp hc
    have hO := order_eq_two_half_add_one
    have hs'le : fromBE s' ≤ fromBE SECP256R1_HALF_ORDER := by omega
    have hdrop : ((sig.take 32) ++ s').drop 32 = s' := by
      have h := List.drop_left (sig.take 32) s'
      rw [htake] at h
      exact h
    have hcmp' := compareBigEndian_pos_iff s' hs'val SECP256R1_HALF_ORDER
      (by rw [hs'len]; decide) half_valid
    have h2 : normalizeSignatureS (sig.take 32 ++ s')
        = .ok (sig.take 32 ++ s') := by
      simp only [normalizeSignatureS, List.length_append, htake, hs'len]
      rw [if_neg (by omega), hdrop, if_neg (fun h => by
        have := hcmp'.mp h
        omega)]
    rw [h1]
    show normalizeSignatureS (sig.take 32 ++ s') = _
    rw [h2]
  · have h1 : normalizeSignatureS sig = .ok sig := by
      simp only [normalizeSignatureS, hlen]
      rw [if_neg (by omega), if_neg hc]
    rw [h1]
    show normalizeSignatureS sig = _
    rw [h1]

/-- Witness for the amended C3 at the signature whose s component equals the
curve order itself. -/
theorem c3_normalize_idempotent_witness :
    (List.replicate 32 0 ++ SECP256R1_ORDER).length = 64 ∧
    ValidBytes (List.replicate 32 0 ++ SECP256R1_ORDER) ∧
    fromBE ((List.replicate 32 0 ++ SECP256R1_ORDER).drop 32) ≤ fromBE SECP256R1_ORDER ∧
    (normalizeSignatureS (List.replicate 32 0 ++ SECP256R1_ORDER)).bind normalizeSignatureS
      = normalizeSignatureS (List.replicate 32 0 ++ SECP256R1_ORDER) :=
  ⟨by decide, by decide, by decide,
    c3_normalize_idempotent _ (by decide) (by decide) (by decide)⟩

/-- C7: for 32-byte big-endian operands with `b <= a` (as unsigned
integers), `subtractBigEndian a b` is exactly the 32-byte big-endian
encoding of `a - b`. -/
theorem c7_subtract_correct (a b : List Nat) (hla : a.length = 32)
    (hlb : b.length = 32) (ha : ValidBytes a) (hb : ValidBytes b)
    (hba : fromBE b ≤ fromBE a) :
    subtractBigEndian a b = toBE 32 (fromBE a - fromBE b) := by
  have hlen : (subtractBigEndian a b).length = 32 := by
    rw [subtractBigEndian_length, hla]
  have hv := subtractBigEndian_spec a b (by omega) ha hb hba
  apply eq_of_fromBE_eq _ (subtractBigEndian_valid a b ha)
  · rw [toBE_length, hlen]
  · exact toBE_valid _ _
  · rw [hv, fromBE_toBE]
    have hbound : fromBE a < 256 ^ 32 := by
      have := fromBE_lt a ha
      rw [hla] at this
      exact this
    rw [Nat.mod_eq_of_lt (by omega)]

/-- Witness for C7 at a pair of concrete 32-byte operands. -/
theorem c7_subtract_correct_witness :
    (List.replicate 31 0 ++ [7] : List Nat).length = 32 ∧
    (List.replicate 31 0 ++ [5] : List Nat).length = 32 ∧
    ValidBytes (List.replicate 31 0 ++ [7]) ∧
    ValidBytes (List.replicate 31 0 ++ [5]) ∧
    fromBE (List.replicate 31 0 ++ [5]) ≤ fromBE (List.replicate 31 0 ++ [7]) ∧
    subtractBigEndian (List.replicate 31 0 ++ [7]) (List.replicate 31 0 ++ [5])
      = toBE 32 (fromBE (List.replicate 31 0 ++ [7]) - fromBE (List.replicate 31 0 ++ [5])) :=
  ⟨by decide, by decide, by decide, by decide, by decide,
    c7_subtract_correct _ _ (by decide) (by decide) (by decide) (by decide) (by decide)⟩

/-! The DER signature parser. -/

/-- Write `src` over `target` starting at `offset`, modelling
`Uint8Array.prototype.set` for the in-bounds calls made below. -/
def setInto (target : List Nat) (offset : Nat) (src : List Nat) : List Nat :=
  target.take offset ++ src ++ target.drop (offset + src.length)

/-- Embedding of the body of `parseDERSignature` from the first INTEGER tag
onward (index.ts lines 374-417), with `o` the running offset.  Lines
388-390 net to `offset = rStart + rLen` because line 390 overwrites the
offset computed by lines 388-389; that is how the R block is advanced past
here.  A `none` length read (input truncated right after an INTEGER tag)
is mapped to an error; no theorem below touches that corner, where the JS
code would instead propagate `undefined`/NaN arithmetic. -/
def parseDERBody (d : List Nat) (o : Nat) : Except String (List Nat) :=
  if d.get? o ≠ some 0x02 then
    .error "Invalid DER signature: missing INTEGER tag for R"
  else
    match d.get? (o + 1) with
    | none => .error "Invalid DER signature: truncated R length"
    | some rLen0 =>
      let rStart := if d.get? (o + 2) = some 0x00 ∧ 32 < rLen0 then o + 3 else o + 2
      let rLen := if d.get? (o + 2) = some 0x00 ∧ 32 < rLen0 then rLen0 - 1 else rLen0
      let o2 := rStart + rLen
      if d.get? o2 ≠ some 0x02 then
        .error "Invalid DER signature: missing INTEGER tag for S"
      else
        match d.get? (o2 + 1) with
        | none => .error "Invalid DER signature: truncated S length"
        | some sLen0 =>
          let sStart := if d.get? (o2 + 2) = some 0x00 ∧ 32 < sLen0 then o2 + 3 else o2 + 2
          let sLen := if d.get? (o2 + 2) = some 0x00 ∧ 32 < sLen0 then sLen0 - 1 else sLen0
          let sig0 := setInto (List.replicate 64 0) (32 - min rLen 32)
            ((d.drop rStart).take (min rLen 32))
          let sig1 := setInto sig0 (32 + (32 - min sLen 32))
            ((d.drop sStart).take (min sLen 32))
          .ok sig1

/-- Embedding of `parseDERSignature` (index.ts lines 360-418).  The first
byte must be the SEQUENCE tag 0x30, else the parse fails; the length byte
is read and, when it is greater than 127 (long form), `totalLen & 0x7f`
additional bytes are skipped (lines 368-372) instead of failing; parsing
then continues with the two INTEGER blocks.  A missing length byte reads
as JS `undefined`, for which `undefined > 127` is false. -/
def parseDERSignature (derSignature : List Nat) : Except String (List Nat) :=
  if derSignature.get? 0 ≠ some 0x30 then
    .error "Invalid DER signature: missing SEQUENCE tag"
  else
    match derSignature.get? 1 with
    | some totalLen =>
      if 127 < totalLen then parseDERBody derSignature (2 + totalLen % 128)
      else parseDERBody derSignature 2
    | none => parseDERBody derSignature 2

example :
    parseDERSignature [0x30, 0x06, 0x02, 0x01, 0x05, 0x02, 0x01, 0x07]
      = .ok (List.replicate 31 0 ++ [0x05] ++ (List.replicate 31 0 ++ [0x07])) := by
  decide

/-- C4 counterexample: a DER input whose SEQUENCE length byte is the
long-form 0x81 is parsed successfully by `parseDERSignature` (the code
skips `0x81 & 0x7f` bytes and keeps going); it does not fail with a
malformed-signature error as the claim states. -/
theorem c4_long_form_counterexample :
    ([0x30, 0x81, 0x06, 0x02, 0x01, 0x05, 0x02, 0x01, 0x07] : List Nat).get? 1
        = some 0x81 ∧
    127 < 0x81 ∧
    parseDERSignature [0x30, 0x81, 0x06, 0x02, 0x01, 0x05, 0x02, 0x01, 0x07]
      = .ok (List.replicate 31 0 ++ [0x05] ++ (List.replicate 31 0 ++ [0x07])) := by
  decide

/-- C4 (amended): on an input whose SEQUENCE length byte is long-form
(greater than 127), `parseDERSignature` does not fail on that account; it
skips `len & 0x7f` bytes and parses the remainder of the input. -/
theorem c4_long_form_skips (d : List Nat) (t : Nat) (h0 : d.get? 0 = some 0x30)
    (h1 : d.get? 1 = some t) (ht : 127 < t) :
    parseDERSignature d = parseDERBody d (2 + t % 128) := by
  simp only [parseDERSignature]
  rw [h0, h1]
  simp [ht]

/-- Witness for the amended C4 at a concrete long-form input. -/
theorem c4_long_form_skips_witness :
    ([0x30, 0x81, 0x06, 0x02, 0x01, 0x09, 0x02, 0x01, 0x03] : List Nat).get? 0
        = some 0x30 ∧
    ([0x30, 0x81, 0x06, 0x02, 0x01, 0x09, 0x02, 0x01, 0x03] : List Nat).get? 1
        = some 0x81 ∧
    127 < 0x81 ∧
    parseDERSignature [0x30, 0x81, 0x06, 0x02, 0x01, 0x09, 0x02, 0x01, 0x03]
      = parseDERBody [0x30, 0x81, 0x06, 0x02, 0x01, 0x09, 0x02, 0x01, 0x03]
          (2 + 0x81 % 128) :=
  ⟨by decide, by decide, by decide,
    c4_long_form_skips _ _ (by decide) (by decide) (by decide)⟩

/-! Spec-side DER encoder for the round-trip claim. -/

/-- Drop leading zero bytes from a big-endian byte string. -/
def stripZeros : List Nat → List Nat
  | [] => []
  | b :: bs => if b = 0 then stripZeros bs else b :: bs

/-- Modelled from the spec: the minimal-length big-endian content bytes of
an unsigned integer below 2^256; the integer 0 is the single byte 0x00. -/
def minBE (n : Nat) : List Nat :=
  if n = 0 then [0] else stripZeros (toBE 32 n)

/-- Modelled from the spec: the DER INTEGER content bytes of `n` — the
minimal big-endian bytes, preceded by a 0x00 pad byte when the high bit of
the leading byte is set (DER's sign-avoidance rule). -/
def derInt (n : Nat) : List Nat :=
  if 128 ≤ (minBE n).headI then 0 :: minBE n else minBE n

/-- Modelled from the spec: the DER encoding
`0x30 <len> 0x02 <rlen> <r-bytes> 0x02 <slen> <s-bytes>` of a pair (r, s). -/
def derEncode (r s : Nat) : List Nat :=
  [0x30, (derInt r).length + (derInt s).length + 4, 0x02, (derInt r).length] ++
    derInt r ++ [0x02, (derInt s).length] ++ derInt s

/-- Content bytes of a parsed DER INTEGER block: the pad byte is dropped
when the block is longer than 32 bytes, as the parser does. -/
def derCore (l : List Nat) : List Nat := if 32 < l.length then l.tail else l

theorem stripZeros_length_le (l : List Nat) : (stripZeros l).length ≤ l.length := by
  induction l with
  | nil => simp [stripZeros]
  | cons b bs ih =>
    by_cases hb : b = 0
    · simp only [stripZeros, if_pos hb, List.length_cons]
      omega
    · simp [stripZeros, hb]

theorem stripZeros_replicate_append (l : List Nat) :
    List.replicate (l.length - (stripZeros l).length) 0 ++ stripZeros l = l := by
  induction l with
  | nil => simp [stripZeros]
  | cons b bs ih =>
    by_cases hb : b = 0
    · subst hb
      have hle := stripZeros_length_le bs
      have hsz : stripZeros (0 :: bs) = stripZeros bs := by simp [stripZeros]
      rw [hsz]
      have h1 : (0 :: bs).length - (stripZeros bs).length
          = (bs.length - (stripZeros bs).length) + 1 := by
        simp only [List.length_cons]
        omega
      rw [h1, List.replicate_succ, List.cons_append, ih]
    · simp [stripZeros, hb]

theorem stripZeros_eq_nil_val {l : List Nat} (h : stripZeros l = []) : fromBE l = 0 := by
  induction l with
  | nil => simp [fromBE]
  | cons b bs ih =>
    by_cases hb : b = 0
    · subst hb
      rw [show stripZeros (0 :: bs) = stripZeros bs from by simp [stripZeros]] at h
      rw [fromBE_cons, ih h]
      simp
    · simp [stripZeros, hb] at h

theorem fromBE_replicate_zero_append (k : Nat) (l : List Nat) :
    fromBE (List.replicate k 0 ++ l) = fromBE l := by
  induction k with
  | zero => simp
  | succ k ih =>
    rw [List.replicate_succ, List.cons_append, fromBE_cons, ih]
    simp

theorem toBE_32_zero : toBE 32 0 = List.replicate 32 0 := by decide

theorem minBE_ne_nil (n : Nat) (h : n < 2 ^ 256) : minBE n ≠ [] := by
  by_cases h0 : n = 0
  · subst h0; simp [minBE]
  · simp only [minBE, if_neg h0]
    intro hnil
    have h1 := stripZeros_eq_nil_val hnil
    rw [fromBE_toBE] at h1
    have : n % 2 ^ 256 = n := Nat.mod_eq_of_lt (by
      have : (256 : Nat) ^ 32 = 2 ^ 256 := by norm_num
      omega)
    rw [show (256 : Nat) ^ 32 = 2 ^ 256 from by norm_num, this] at h1
    exact h0 h1

theorem minBE_length_le (n : Nat) : (minBE n).length ≤ 32 := by
  by_cases h0 : n = 0
  · subst h0; simp [minBE]
  · simp only [minBE, if_neg h0]
    have := stripZeros_length_le (toBE 32 n)
    rw [toBE_length] at this
    exact this

theorem minBE_field (n : Nat) (h : n < 2 ^ 256) :
    List.replicate (32 - (minBE n).length) 0 ++ minBE n = toBE 32 n := by
  by_cases h0 : n = 0
  · subst h0
    rw [toBE_32_zero]
    decide
  · simp only [minBE, if_neg h0]
    have h1 := stripZeros_replicate_append (toBE 32 n)
    rw [toBE_length] at h1
    exact h1

theorem replicate_zero_append_cons (k : Nat) (l : List Nat) :
    List.replicate k 0 ++ 0 :: l = List.replicate (k + 1) 0 ++ l := by
  rw [List.replicate_succ', List.append_assoc, List.singleton_append]

theorem derInt_ne_nil (n : Nat) (h : n < 2 ^ 256) : derInt n ≠ [] := by
  simp only [derInt]
  split
  · simp
  · exact minBE_ne_nil n h

theorem derInt_length_le (n : Nat) : (derInt n).length ≤ 33 := by
  have := minBE_length_le n
  simp only [derInt]
  split
  · simp only [List.length_cons]
    omega
  · omega

theorem derInt_headI_pad (n : Nat) (h32 : 32 < (derInt n).length) :
    (derInt n).headI = 0 := by
  have hm := minBE_length_le n
  by_cases hpad : 128 ≤ (minBE n).headI
  · simp [derInt, hpad]
  · exfalso
    simp only [derInt, if_neg hpad] at h32
    omega

theorem derCore_derInt_field (n : Nat) (h : n < 2 ^ 256) :
    List.replicate (32 - (derCore (derInt n)).length) 0 ++ derCore (derInt n)
      = toBE 32 n := by
  have hm := minBE_length_le n
  by_cases hpad : 128 ≤ (minBE n).headI
  · -- derInt n = 0 :: minBE n
    have hd : derInt n = 0 :: minBE n := by simp [derInt, hpad]
    by_cases h32 : 32 < (derInt n).length
    · -- the 33-byte case: the core is minBE n itself
      have h32' : 32 < (minBE n).length + 1 := by
        rw [hd] at h32
        simpa using h32
      have hc : derCore (derInt n) = minBE n := by
        simp only [derCore, hd, List.length_cons]
        rw [if_pos h32']
        rfl
      rw [hc]
      exact minBE_field n h
    · have hc : derCore (derInt n) = derInt n := by simp [derCore, h32]
      have hlt : (minBE n).length + 1 ≤ 32 := by
        rw [hd] at h32
        simp only [List.length_cons] at h32
        omega
      rw [hc, hd, List.length_cons, replicate_zero_append_cons]
      rw [show 32 - ((minBE n).length + 1) + 1 = 32 - (minBE n).length from by omega]
      exact minBE_field n h
  · have hd : derInt n = minBE n := by simp [derInt, hpad]
    have h32 : ¬ 32 < (derInt n).length := by rw [hd]; omega
    have hc : derCore (derInt n) = derInt n := by simp [derCore, h32]
    rw [hc, hd]
    exact minBE_field n h

theorem derCore_length_le (l : List Nat) (h : l.length ≤ 33) :
    (derCore l).length ≤ 32 := by
  simp only [derCore]
  split
  · rw [List.length_tail]
    omega
  · omega

theorem get?_append_add (pre tail : List Nat) (j : Nat) :
    (pre ++ tail).get? (pre.length + j) = tail.get? j := by
  rw [List.get?_append_right (by omega)]
  congr 1
  omega

theorem get?_append_self (pre tail : List Nat) :
    (pre ++ tail).get? pre.length = tail.get? 0 := by
  simpa using get?_append_add pre tail 0

theorem drop_append_add (pre tail : List Nat) (j : Nat) :
    (pre ++ tail).drop (pre.length + j) = tail.drop j := by
  rw [← List.drop_drop, List.drop_left]

theorem setInto_fields (rF sF : List Nat) (hr : rF.length ≤ 32) (hs : sF.length ≤ 32) :
    setInto (setInto (List.replicate 64 0) (32 - rF.length) rF) (32 + (32 - sF.length)) sF
      = (List.replicate (32 - rF.length) 0 ++ rF) ++
        (List.replicate (32 - sF.length) 0 ++ sF) := by
  have h0 : setInto (List.replicate 64 0) (32 - rF.length) rF
      = (List.replicate (32 - rF.length) 0 ++ rF) ++ List.replicate 32 0 := by
    unfold setInto
    rw [List.take_replicate, show (32 - rF.length) ⊓ 64 = 32 - rF.length from by omega,
      show 32 - rF.length + rF.length = 32 from by omega, List.drop_replicate,
      show (64 : Nat) - 32 = 32 from by omega, List.append_assoc]
  rw [h0]
  unfold setInto
  have hlen : (List.replicate (32 - rF.length) 0 ++ rF).length = 32 := by
    simp
    omega
  have h1 := @List.take_append Nat (List.replicate (32 - rF.length) 0 ++ rF)
    (List.replicate 32 0) (32 - sF.length)
  rw [hlen, List.take_replicate, show (32 - sF.length) ⊓ 32 = 32 - sF.length from by omega]
    at h1
  have h2 := @List.drop_append Nat (List.replicate (32 - rF.length) 0 ++ rF)
    (List.replicate 32 0) 32
  rw [hlen, List.drop_replicate, show (32 : Nat) - 32 = 0 from by omega] at h2
  rw [show 32 + (32 - sF.length) + sF.length = 32 + 32 from by omega, h2,
    show (32 : Nat) + (32 - sF.length) = 32 + (32 - sF.length) from rfl, h1]
  simp [List.append_assoc]

/-- Structure of a `parseDERBody` run on a well-shaped tail
`0x02 <rlen> <r-bytes> 0x02 <slen> <s-bytes>` sitting at offset
`pre.length`: each INTEGER block of length at most 33 (with a zero leading
byte whenever it is longer than 32) parses to its 32-byte right-aligned
core. -/
theorem parseDERBody_shape (pre rb sb : List Nat)
    (hrb0 : rb ≠ []) (hrb33 : rb.length ≤ 33)
    (hsb0 : sb ≠ []) (hsb33 : sb.length ≤ 33)
    (hrbpad : 32 < rb.length → rb.headI = 0)
    (hsbpad : 32 < sb.length → sb.headI = 0) :
    parseDERBody (pre ++ 0x02 :: rb.length :: (rb ++ 0x02 :: sb.length :: sb)) pre.length
      = .ok ((List.replicate (32 - (derCore rb).length) 0 ++ derCore rb) ++
             (List.replicate (32 - (derCore sb).length) 0 ++ derCore sb)) := by
  obtain ⟨b0, rt, rfl⟩ := List.exists_cons_of_ne_nil hrb0
  obtain ⟨c0, st, rfl⟩ := List.exists_cons_of_ne_nil hsb0
  set rb := b0 :: rt with hrb
  set sb := c0 :: st with hsb
  set v : List Nat := 0x02 :: rb.length :: (rb ++ 0x02 :: sb.length :: sb) with hv
  set d : List Nat := pre ++ v with hd
  have hE : ∀ j, d.get? (pre.length + j) = v.get? j := fun j => get?_append_add pre v j
  have hD : ∀ j, d.drop (pre.length + j) = v.drop j := fun j => drop_append_add pre v j
  have hE0 : d.get? pre.length = some 2 := by
    rw [hd, get?_append_self, hv]
    rfl
  have hE1 : d.get? (pre.length + 1) = some rb.length := by
    rw [hE 1, hv]
    rfl
  have hE2 : d.get? (pre.length + 2) = some b0 := by rw [hE 2, hv]; rfl
  -- uniform S-side indices
  have hE3 : d.get? (pre.length + 2 + rb.length) = some 2 := by
    rw [show pre.length + 2 + rb.length = pre.length + (rb.length + 2) from by omega,
      hE (rb.length + 2), hv]
    show (rb ++ 0x02 :: sb.length :: sb).get? rb.length = some 2
    rw [List.get?_append_right (le_refl _), Nat.sub_self]
    rfl
  have hE4 : d.get? (pre.length + 2 + rb.length + 1) = some sb.length := by
    rw [show pre.length + 2 + rb.length + 1 = pre.length + (rb.length + 3) from by omega,
      hE (rb.length + 3), hv]
    show (rb ++ 0x02 :: sb.length :: sb).get? (rb.length + 1) = some sb.length
    rw [List.get?_append_right (by omega), show rb.length + 1 - rb.length = 1 from by omega]
    rfl
  have hE5 : d.get? (pre.length + 2 + rb.length + 2) = some c0 := by
    rw [show pre.length + 2 + rb.length + 2 = pre.length + (rb.length + 4) from by omega,
      hE (rb.length + 4), hv]
    show (rb ++ 0x02 :: sb.length :: sb).get? (rb.length + 2) = some c0
    rw [List.get?_append_right (by omega), show rb.length + 2 - rb.length = 2 from by omega]
    rfl
  have hDs2 : d.drop (pre.length + 2 + rb.length + 2) = sb := by
    rw [show pre.length + 2 + rb.length + 2 = pre.length + (rb.length + 4) from by omega,
      hD (rb.length + 4), hv]
    show (rb ++ 0x02 :: sb.length :: sb).drop (rb.length + 2) = sb
    rw [← List.drop_drop, List.drop_left]
    rfl
  have hDs3 : d.drop (pre.length + 2 + rb.length + 3) = st := by
    rw [show pre.length + 2 + rb.length + 3 = pre.length + (rb.length + 5) from by omega,
      hD (rb.length + 5), hv]
    show (rb ++ 0x02 :: sb.length :: sb).drop (rb.length + 3) = st
    rw [← List.drop_drop, List.drop_left]
    rfl
  simp only [parseDERBody]
  rw [hE0, if_neg (fun h => h rfl), hE1]
  dsimp only
  rw [hE2]
  by_cases hrskip : 32 < rb.length
  · -- the R block carries a leading pad byte and is 33 bytes long
    have hb0 : b0 = 0 := by
      have h := hrbpad hrskip
      rw [hrb] at h
      simpa using h
    have hrlen : rb.length = 33 := by omega
    have hrt32 : rt.length = 32 := by
      rw [hrb] at hrlen
      simp only [List.length_cons] at hrlen
      omega
    have hcond : some b0 = some 0 ∧ 32 < rb.length := ⟨by rw [hb0], hrskip⟩
    simp only [if_pos hcond]
    simp only [show pre.length + 3 + (rb.length - 1)
        = pre.length + 2 + rb.length from by omega]
    rw [hE3, if_neg (fun h => h rfl), hE4]
    dsimp only
    rw [hE5]
    simp only [show min (rb.length - 1) 32 = 32 from by omega]
    have hDr3 : d.drop (pre.length + 3) = rt ++ 0x02 :: sb.length :: sb := by
      rw [hD 3, hv]
      rfl
    rw [hDr3, List.take_left' hrt32]
    have hcore : derCore rb = rt := by
      simp only [derCore, if_pos hrskip, hrb, List.tail_cons]
    by_cases hsskip : 32 < sb.length
    · have hc0 : c0 = 0 := by
        have h := hsbpad hsskip
        rw [hsb] at h
        simpa using h
      have hslen : sb.length = 33 := by omega
      have hst32 : st.length = 32 := by
        rw [hsb] at hslen
        simp only [List.length_cons] at hslen
        omega
      have hscond : some c0 = some 0 ∧ 32 < sb.length := ⟨by rw [hc0], hsskip⟩
      simp only [if_pos hscond]
      simp only [show min (sb.length - 1) 32 = 32 from by omega]
      have htkS : List.take 32 st = st := by
        rw [← hst32]
        exact List.take_length st
      rw [hDs3, htkS]
      have hscore : derCore sb = st := by
        simp only [derCore, if_pos hsskip, hsb, List.tail_cons]
      have hfin := setInto_fields rt st (by omega) (by omega)
      rw [hrt32, hst32] at hfin
      rw [hfin, hcore, hscore, hrt32, hst32]
    · have hscond : ¬ (some c0 = some 0 ∧ 32 < sb.length) := fun h => hsskip h.2
      simp only [if_neg hscond]
      simp only [show min sb.length 32 = sb.length from by omega]
      rw [hDs2, List.take_length]
      have hscore : derCore sb = sb := by
        simp only [derCore, if_neg hsskip]
      have hfin := setInto_fields rt sb (by omega) (by omega)
      rw [hrt32] at hfin
      rw [hfin, hcore, hscore, hrt32]
  · have hcond : ¬ (some b0 = some 0 ∧ 32 < rb.length) := fun h => hrskip h.2
    simp only [if_neg hcond]
    rw [hE3, if_neg (fun h => h rfl), hE4]
    dsimp only
    rw [hE5]
    simp only [show min rb.length 32 = rb.length from by omega]
    have hDr2 : d.drop (pre.length + 2) = rb ++ 0x02 :: sb.length :: sb := by
      rw [hD 2, hv]
      rfl
    rw [hDr2, List.take_left]
    have hcore : derCore rb = rb := by
      simp only [derCore, if_neg hrskip]
    by_cases hsskip : 32 < sb.length
    · have hc0 : c0 = 0 := by
        have h := hsbpad hsskip
        rw [hsb] at h
        simpa using h
      have hslen : sb.length = 33 := by omega
      have hst32 : st.length = 32 := by
        rw [hsb] at hslen
        simp only [List.length_cons] at hslen
        omega
      have hscond : some c0 = some 0 ∧ 32 < sb.length := ⟨by rw [hc0], hsskip⟩
      simp only [if_pos hscond]
      simp only [show min (sb.length - 1) 32 = 32 from by omega]
      have htkS : List.take 32 st = st := by
        rw [← hst32]
        exact List.take_length st
      rw [hDs3, htkS]
      have hscore : derCore sb = st := by
        simp only [derCore, if_pos hsskip, hsb, List.tail_cons]
      have hfin := setInto_fields rb st (by omega) (by omega)
      rw [hst32] at hfin
      rw [hfin, hcore, hscore, hst32]
    · have hscond : ¬ (some c0 = some 0 ∧ 32 < sb.length) := fun h => hsskip h.2
      simp only [if_neg hscond]
      simp only [show min sb.length 32 = sb.length from by omega]
      rw [hDs2, List.take_length]
      have hscore : derCore sb = sb := by
        simp only [derCore, if_neg hsskip]
      have hfin := setInto_fields rb sb (by omega) (by omega)
      rw [hfin, hcore, hscore]

/-- C2: for any pair (r, s) of unsigned integers at most 32 bytes wide,
DER-encoding them (minimal length, 0x00 pad when the high bit is set) and
then applying `parseDERSignature` yields exactly the 64-byte concatenation
of the 32-byte right-aligned encodings of r and s. -/
theorem c2_der_round_trip (r s : Nat) (hr : r < 2 ^ 256) (hs : s < 2 ^ 256) :
    parseDERSignature (derEncode r s) = .ok (toBE 32 r ++ toBE 32 s) := by
  have hrb0 := derInt_ne_nil r hr
  have hsb0 := derInt_ne_nil s hs
  have hrb33 := derInt_length_le r
  have hsb33 := derInt_length_le s
  have hrpad : 32 < (derInt r).length → (derInt r).headI = 0 :=
    fun h => derInt_headI_pad r h
  have hspad : 32 < (derInt s).length → (derInt s).headI = 0 :=
    fun h => derInt_headI_pad s h
  have hd : derEncode r s
      = [0x30, (derInt r).length + (derInt s).length + 4]
        ++ 0x02 :: (derInt r).length
          :: (derInt r ++ 0x02 :: (derInt s).length :: derInt s) := by
    simp [derEncode]
  rw [hd]
  simp only [parseDERSignature]
  rw [show (([0x30, (derInt r).length + (derInt s).length + 4] : List Nat)
      ++ 0x02 :: (derInt r).length
        :: (derInt r ++ 0x02 :: (derInt s).length :: derInt s)).get? 0
      = some 0x30 from rfl]
  rw [if_neg (fun h => h rfl)]
  rw [show (([0x30, (derInt r).length + (derInt s).length + 4] : List Nat)
      ++ 0x02 :: (derInt r).length
        :: (derInt r ++ 0x02 :: (derInt s).length :: derInt s)).get? 1
      = some ((derInt r).length + (derInt s).length + 4) from rfl]
  dsimp only
  rw [if_neg (show ¬ 127 < (derInt r).length + (derInt s).length + 4 from by omega)]
  rw [← derCore_derInt_field r hr, ← derCore_derInt_field s hs]
  exact parseDERBody_shape [0x30, (derInt r).length + (derInt s).length + 4]
    (derInt r) (derInt s) hrb0 hrb33 hsb0 hsb33 hrpad hspad

/-- Witness for C2 at r = 2^255 (a 32-byte value with the high bit set,
whose DER block carries the pad byte and is 33 bytes long) and s = 128
(a 1-byte value that also needs a pad byte). -/
theorem c2_der_round_trip_witness :
    (2 : Nat) ^ 255 < 2 ^ 256 ∧ (128 : Nat) < 2 ^ 256 ∧
    parseDERSignature (derEncode (2 ^ 255) 128)
      = .ok (toBE 32 (2 ^ 255) ++ toBE 32 128) :=
  ⟨by norm_num, by norm_num, c2_der_round_trip _ _ (by norm_num) (by norm_num)⟩

/-! The authorization message builder, execution-flow selector,
public-key compressor and instruction serializer. -/

/-- The three smart-wallet actions (index.ts line 163). -/
inductive SmartWalletAction
  | Execute
  | CreateChunk
  | ExecuteChunk
deriving DecidableEq

/-- Embedding of `buildAuthorizationMessage` (index.ts lines 536-567): a
1-byte action discriminant (0 = Execute, 1 = CreateChunk, 2 = ExecuteChunk),
8 bytes little-endian timestamp (`BN.toArrayLike(_, 'le', 8)`), the raw
account-address bytes, then the content hash when present, concatenated. -/
def buildAuthorizationMessage (action : SmartWalletAction) (timestamp : Nat)
    (smartWallet : List Nat) (cpiHash : Option (List Nat)) : List Nat :=
  let actionByte : Nat :=
    match action with
    | .Execute => 0
    | .CreateChunk => 1
    | .ExecuteChunk => 2
  [actionByte] ++ toLE 8 timestamp ++ smartWallet ++
    (match cpiHash with
     | some h => h
     | none => [])

/-- C5 counterexample: at the claim's literal inputs the built message is
41 bytes long (1 action byte + 8 timestamp bytes + 32 address bytes), not
the 17 bytes the claim asserts. -/
theorem c5_length_counterexample :
    (buildAuthorizationMessage .Execute 1700000000 (List.replicate 32 1) none).length
        = 41 ∧
    (buildAuthorizationMessage .Execute 1700000000 (List.replicate 32 1) none).length
        ≠ 17 := by
  decide

/-- C5 (amended): at action = Execute, timestamp = 1700000000 and a 32-byte
address of 0x01 bytes, the builder produces exactly
`[0x00] ++ LE8(1700000000) ++ 32 bytes of 0x01`, 41 bytes in total, with no
content hash appended. -/
theorem c5_auth_message_bytes :
    buildAuthorizationMessage .Execute 1700000000 (List.replicate 32 1) none
      = [0x00, 0x00, 0xF1, 0x53, 0x65, 0x00, 0x00, 0x00, 0x00]
          ++ List.replicate 32 1 ∧
    (buildAuthorizationMessage .Execute 1700000000 (List.replicate 32 1) none).length
        = 41 := by
  decide

/-- One account reference of an instruction (pubkey bytes plus the signer
and writable flags). -/
structure AccountMeta where
  pubkey : List Nat
  isSigner : Bool
  isWritable : Bool
deriving DecidableEq

/-- A transaction instruction as the serializer and the flow selector see
it: program id bytes, account references, raw data bytes. -/
structure Instruction where
  programId : List Nat
  keys : List AccountMeta
  data : List Nat
deriving DecidableEq

/-- The two execution flows (index.ts line 515). -/
inductive ExecutionFlow
  | direct
  | chunked
deriving DecidableEq

/-- Solana transaction size limit (index.ts line 157). -/
def SOLANA_TX_SIZE_LIMIT : Nat := 1232

/-- Embedding of `determineExecutionFlow` (index.ts lines 512-531).  The
size estimator (`estimateTransactionSize`, lines 494-507, a wrapper around
the external @solana/web3.js transaction encoder) is abstracted as a
function returning `none` where the original throws.  A single instruction
whose estimated size is under `SOLANA_TX_SIZE_LIMIT - 200` selects direct;
every other path falls through to chunked. -/
def determineExecutionFlow (estimate : List Instruction → List Nat → Option Nat)
    (instructions : List Instruction) (payer : List Nat) : ExecutionFlow :=
  if instructions.length = 1 then
    match estimate instructions payer with
    | some size => if size < SOLANA_TX_SIZE_LIMIT - 200 then .direct else .chunked
    | none => .chunked
  else .chunked

/-- C6: the selector returns direct exactly when the instruction list has
one element, the estimator succeeds, and the estimate is strictly under
`SOLANA_TX_SIZE_LIMIT - 200`; in every other case (other list lengths,
estimator failure, or estimate at or over the threshold) it returns
chunked, the only other value of `ExecutionFlow`. -/
theorem c6_flow_selection (estimate : List Instruction → List Nat → Option Nat)
    (instructions : List Instruction) (payer : List Nat) :
    determineExecutionFlow estimate instructions payer = .direct
      ↔ instructions.length = 1 ∧
        ∃ n, estimate instructions payer = some n ∧ n < SOLANA_TX_SIZE_LIMIT - 200 := by
  unfold determineExecutionFlow
  by_cases h1 : instructions.length = 1
  · rw [if_pos h1]
    cases he : estimate instructions payer with
    | none => simp [h1]
    | some n =>
      by_cases hn : n < SOLANA_TX_SIZE_LIMIT - 200
      · simp [h1, hn]
      · simp [h1, hn]
  · rw [if_neg h1]
    simp [h1]

/-- Embedding of `compressPublicKey` (index.ts lines 1158-1178): a 65-byte
input starting with 0x04 is compressed to `[0x02 or 0x03] ++ X` depending
on the parity of the last byte of Y; otherwise a 33-byte input is returned
unchanged and anything else raises the invalid-public-key error (a
`SIGNATURE_FAILED`-coded `LazorError` with this message). -/
def compressPublicKey (uncompressed : List Nat) : Except String (List Nat) :=
  if uncompressed.length ≠ 65 ∨ uncompressed.get? 0 ≠ some 0x04 then
    if uncompressed.length = 33 then .ok uncompressed
    else .error "Invalid public key format"
  else
    let x := (uncompressed.drop 1).take 32
    let y := (uncompressed.drop 33).take 32
    let pfx : Nat := if y.getD 31 0 % 2 = 0 then 0x02 else 0x03
    .ok (pfx :: x)

/-- C8: `compressPublicKey` returns every 33-byte input unchanged; turns a
65-byte input starting 0x04 into the parity prefix (0x02 for even Y, 0x03
for odd Y) followed by the 32-byte X coordinate; and fails with the
invalid-public-key error on every other shape. -/
theorem c8_compress_public_key :
    (∀ pk : List Nat, pk.length = 33 → compressPublicKey pk = .ok pk) ∧
    (∀ pk : List Nat, pk.length = 65 → pk.get? 0 = some 0x04 →
      compressPublicKey pk
        = .ok ((if ((pk.drop 33).take 32).getD 31 0 % 2 = 0 then 0x02 else 0x03)
            :: (pk.drop 1).take 32)) ∧
    (∀ pk : List Nat, pk.length ≠ 33 → ¬(pk.length = 65 ∧ pk.get? 0 = some 0x04) →
      compressPublicKey pk = .error "Invalid public key format") := by
  refine ⟨?_, ?_, ?_⟩
  · intro pk h33
    unfold compressPublicKey
    rw [if_pos (Or.inl (by omega)), if_pos h33]
  · intro pk h65 h04
    unfold compressPublicKey
    rw [if_neg (fun hor => hor.elim (fun hne => hne h65) (fun hne => hne h04))]
  · intro pk h33 hn
    unfold compressPublicKey
    have hcond : pk.length ≠ 65 ∨ pk.get? 0 ≠ some 0x04 := by
      by_cases h65 : pk.length = 65
      · right
        intro h04
        exact hn ⟨h65, h04⟩
      · left
        exact h65
    rw [if_pos hcond, if_neg h33]

/-- Witness for C8 at a 33-byte input, a 65-byte uncompressed point with an
odd Y coordinate, and a malformed 3-byte input. -/
theorem c8_compress_public_key_witness :
    compressPublicKey (List.replicate 33 7) = .ok (List.replicate 33 7) ∧
    compressPublicKey
        (0x04 :: (List.replicate 31 2 ++ [9] ++ List.replicate 31 0 ++ [5]))
      = .ok (0x03 :: (List.replicate 31 2 ++ [9])) ∧
    compressPublicKey [1, 2, 3] = .error "Invalid public key format" := by
  refine ⟨c8_compress_public_key.1 _ (by decide), ?_,
    c8_compress_public_key.2.2 _ (by decide) (by decide)⟩
  have h := c8_compress_public_key.2.1
    (0x04 :: (List.replicate 31 2 ++ [9] ++ List.replicate 31 0 ++ [5]))
    (by decide) (by decide)
  rw [h]
  decide

/-- Embedding of `serializeInstructions` for one instruction (index.ts
lines 1183-1206): program id bytes, one byte holding the account count
(`new Uint8Array([keys.length])` stores the value mod 256), then per
account its 32 pubkey bytes and the two flag bytes, then two bytes holding
`dataLen & 0xff` and `(dataLen >> 8) & 0xff`, then the raw data. -/
def serializeInstruction (ix : Instruction) : List Nat :=
  ix.programId ++ [ix.keys.length % 256] ++
    (ix.keys.map (fun k =>
      k.pubkey ++ [if k.isSigner then 1 else 0, if k.isWritable then 1 else 0])).flatten ++
    [ix.data.length % 256, ix.data.length / 256 % 256] ++ ix.data

/-- Embedding of `serializeInstructions` (index.ts lines 1183-1206): the
concatenation of the per-instruction serializations. -/
def serializeInstructions (instructions : List Instruction) : List Nat :=
  (instructions.map serializeInstruction).flatten

/-- An instruction with 256 account references; the first pubkey starts
with the bytes 0x00 0x22 so that its serialization collides with `ixB`. -/
def ixA : Instruction :=
  { programId := List.replicate 32 0
    keys := ⟨0 :: 0x22 :: List.replicate 30 0, false, false⟩
      :: List.replicate 255 ⟨List.replicate 32 0, false, false⟩
    data := [] }

/-- An instruction with no account references whose 8704-byte data field
reproduces the bytes that `ixA`'s key table serializes to. -/
def ixB : Instruction :=
  { programId := List.replicate 32 0
    keys := []
    data := List.replicate 8704 0 }

/-- C10: `serializeInstructions` keeps only the low 8 bits of the account
count and the low 16 bits of the data length, so it is not injective: the
list holding `ixA` (256 accounts, count byte 256 mod 256 = 0) and the list
holding `ixB` (0 accounts, the same bytes reinterpreted as data of length
8704 = 0x2200) serialize identically while differing in account count. -/
theorem flatten_replicate_replicate (n m : Nat) (a : Nat) :
    (List.replicate n (List.replicate m a)).flatten = List.replicate (n * m) a := by
  induction n with
  | zero => simp
  | succ n ih =>
    rw [List.replicate_succ, List.flatten_cons, ih, ← List.replicate_add]
    congr 1
    ring

theorem c10_serialize_not_injective :
    serializeInstructions [ixA] = serializeInstructions [ixB] ∧
    ixA.keys.length = 256 ∧ ixB.keys.length = 0 := by
  have hkeysA : ixA.keys = (⟨0 :: 0x22 :: List.replicate 30 0, false, false⟩ : AccountMeta)
      :: List.replicate 255 ⟨List.replicate 32 0, false, false⟩ := rfl
  have hmapA : ixA.keys.map (fun k =>
        k.pubkey ++ [if k.isSigner then 1 else 0, if k.isWritable then 1 else 0])
      = ((0 :: 0x22 :: List.replicate 30 0) ++ [0, 0])
        :: List.replicate 255 (List.replicate 32 0 ++ [0, 0]) := by
    rw [hkeysA, List.map_cons, List.map_replicate]
    rfl
  have t1 : List.replicate 8702 (0:Nat) ++ [0, 0] = List.replicate 8704 0 := by
    rw [show ([0, 0] : List Nat) = List.replicate 2 0 from rfl, ← List.replicate_add]
  have hflatA : (((0 :: 0x22 :: List.replicate 30 0) ++ [0, 0])
        :: List.replicate 255 (List.replicate 32 (0:Nat) ++ [0, 0])).flatten
      = 0 :: 0x22 :: List.replicate 8702 0 := by
    rw [List.flatten_cons,
      show List.replicate 32 (0:Nat) ++ [0, 0] = List.replicate 34 0 from by decide,
      flatten_replicate_replicate,
      show (255 : Nat) * 34 = 8670 from by norm_num]
    simp only [List.cons_append, List.append_assoc, List.nil_append]
    congr 2
  have hlenA : ixA.keys.length = 256 := by
    rw [hkeysA, List.length_cons, List.length_replicate]
  have hser : serializeInstruction ixA = serializeInstruction ixB := by
    unfold serializeInstruction
    rw [hmapA, hflatA, hlenA,
      show ixA.programId = List.replicate 32 (0:Nat) from rfl,
      show ixA.data = ([] : List Nat) from rfl,
      show ixB.programId = List.replicate 32 (0:Nat) from rfl,
      show ixB.keys = ([] : List AccountMeta) from rfl,
      show ixB.data = List.replicate 8704 (0:Nat) from rfl,
      List.length_replicate]
    simp only [List.map_nil, List.flatten_nil, List.length_nil,
      List.append_nil, List.nil_append, List.cons_append, List.append_assoc]
    norm_num
    exact t1
  exact ⟨by
    show ([ixA].map serializeInstruction).flatten = ([ixB].map serializeInstruction).flatten
    simp only [List.map_cons, List.map_nil, List.flatten_cons, List.flatten_nil,
      List.append_nil]
    exact hser, hlenA, rfl⟩

/-! The SHA-256 implementation (index.ts lines 66-123).  Words are `Nat`
values below 2^32; every JS `>>> 0` becomes an explicit `% 4294967296`.
The JS intermediate values S0, S1, ch and maj are Int32-signed, but a
signed representative is congruent to its unsigned bit pattern modulo
2^32, so the trailing `>>> 0` of each sum makes the `Nat` model exact. -/

/-- The 32-bit right-rotation `rotr` of the source: bit-or of `x >>> n`
and `(x << (32 - n)) >>> 0`. -/
def rotr32 (x n : Nat) : Nat := (x >>> n) ||| ((x <<< (32 - n)) % 4294967296)

/-- The round constant table K (index.ts lines 67-76). -/
def K256 : List Nat :=
  [0x428a2f98, 0x71374491, 0xb5c0fbcf, 0xe9b5dba5, 0x3956c25b, 0x59f111f1, 0x923f82a4, 0xab1c5ed5]
    ++ [0xd807aa98, 0x12835b01, 0x243185be, 0x550c7dc3, 0x72be5d74, 0x80deb1fe, 0x9bdc06a7, 0xc19bf174]
    ++ [0xe49b69c1, 0xefbe4786, 0x0fc19dc6, 0x240ca1cc, 0x2de92c6f, 0x4a7484aa, 0x5cb0a9dc, 0x76f988da]
    ++ [0x983e5152, 0xa831c66d, 0xb00327c8, 0xbf597fc7, 0xc6e00bf3, 0xd5a79147, 0x06ca6351, 0x14292967]
    ++ [0x27b70a85, 0x2e1b2138, 0x4d2c6dfc, 0x53380d13, 0x650a7354, 0x766a0abb, 0x81c2c92e, 0x92722c85]
    ++ [0xa2bfe8a1, 0xa81a664b, 0xc24b8b70, 0xc76c51a3, 0xd192e819, 0xd6990624, 0xf40e3585, 0x106aa070]
    ++ [0x19a4c116, 0x1e376c08, 0x2748774c, 0x34b0bcb5, 0x391c0cb3, 0x4ed8aa4a, 0x5b9cca4f, 0x682e6ff3]
    ++ [0x748f82ee, 0x78a5636f, 0x84c87814, 0x8cc70208, 0x90befffa, 0xa4506ceb, 0xbef9a3f7, 0xc67178f2]

/-- The initial hash state h0..h7 (index.ts lines 80-81). -/
def sha256InitH : List Nat :=
  [0x6a09e667, 0xbb67ae85, 0x3c6ef372, 0xa54ff53a,
   0x510e527f, 0x9b05688c, 0x1f83d9ab, 0x5be0cd19]

/-- One step of the message-schedule extension (index.ts lines 96-100):
with `n` words present, appends `(w[n-16] + s0 + w[n-7] + s1) >>> 0`. -/
def schedStep (ws : List Nat) : List Nat :=
  let n := ws.length
  let w15 := ws.getD (n - 15) 0
  let w2 := ws.getD (n - 2) 0
  let s0 := rotr32 w15 7 ^^^ rotr32 w15 18 ^^^ (w15 >>> 3)
  let s1 := rotr32 w2 17 ^^^ rotr32 w2 19 ^^^ (w2 >>> 10)
  ws ++ [(ws.getD (n - 16) 0 + s0 + ws.getD (n - 7) 0 + s1) % 4294967296]

/-- Extends the 16 block words to 64 by 48 schedule steps. -/
def extendW : Nat → List Nat → List Nat
  | 0, ws => ws
  | k + 1, ws => extendW k (schedStep ws)

/-- The 64-round compression loop (index.ts lines 101-111) over the state
list [a, b, c, d, e, f, g, h]; `4294967295 ^^^ e` is the 32-bit pattern of
the JS `~e`. -/
def roundLoop : List (Nat × Nat) → List Nat → List Nat
  | [], st => st
  | (k, w) :: rest, st =>
    let a := st.getD 0 0
    let b := st.getD 1 0
    let c := st.getD 2 0
    let d := st.getD 3 0
    let e := st.getD 4 0
    let f := st.getD 5 0
    let g := st.getD 6 0
    let hh := st.getD 7 0
    let S1 := rotr32 e 6 ^^^ rotr32 e 11 ^^^ rotr32 e 25
    let ch := (e &&& f) ^^^ ((4294967295 ^^^ e) &&& g)
    let temp1 := (hh + S1 + ch + k + w) % 4294967296
    let S0 := rotr32 a 2 ^^^ rotr32 a 13 ^^^ rotr32 a 22
    let maj := (a &&& b) ^^^ (a &&& c) ^^^ (b &&& c)
    let temp2 := (S0 + maj) % 4294967296
    roundLoop rest
      [(temp1 + temp2) % 4294967296, a, b, c, (d + temp1) % 4294967296, e, f, g]

/-- One block: extend the schedule, run 64 rounds, add the result into
the running state modulo 2^32 (index.ts lines 92-113). -/
def compressBlock (h : List Nat) (block : List Nat) : List Nat :=
  let w := extendW 48 block
  let st := roundLoop (K256.zip w) h
  List.zipWith (fun x y => (x + y) % 4294967296) h st

/-- Big-endian 32-bit words of a byte list (`DataView.getUint32(_, false)`
over each 4-byte group). -/
def toWords : List Nat → List Nat
  | a :: b :: c :: d :: rest => (((a * 256 + b) * 256 + c) * 256 + d) :: toWords rest
  | _ => []

/-- Folds `compressBlock` over the given number of 16-word blocks. -/
def processBlocks : Nat → List Nat → List Nat → List Nat
  | 0, h, _ => h
  | k + 1, h, ws => processBlocks k (compressBlock h (ws.take 16)) (ws.drop 16)

/-- The padded length chosen by the source, `(len + 9 + 63) & ~63`
(index.ts line 84) — the least multiple of 64 at least `len + 9`; the
bit-trick form and this quotient form agree for every length a JS typed
array can have. -/
def padTotalLen (len : Nat) : Nat := ((len + 9 + 63) / 64) * 64

/-- The padding the source builds (index.ts lines 83-89): the data, the
0x80 marker, zero fill, and — via `setUint32(padded.length - 4, bitLength)`
— only the LOW 32 BITS of the bit length in the last four bytes (the four
bytes before them stay zero). -/
def padCode (data : List Nat) : List Nat :=
  data ++ 0x80 ::
    (List.replicate (padTotalLen data.length - data.length - 5) 0 ++
      toBE 4 (data.length * 8))

/-- Modelled from the spec (FIPS 180-4 padding, which the code's doc
comment and the spec's \"matches the standard SHA-256 specification
exactly\" promise): same layout but the full 64-bit message bit length. -/
def padSpec (data : List Nat) : List Nat :=
  data ++ 0x80 ::
    (List.replicate (padTotalLen data.length - data.length - 9) 0 ++
      toBE 8 (data.length * 8))

/-- The block-processing pipeline shared by the code and the spec model:
words, compression, and the big-endian serialization of the final state
(index.ts lines 91-122). -/
def sha256core (padded : List Nat) : List Nat :=
  ((processBlocks (padded.length / 64) sha256InitH (toWords padded)).map (toBE 4)).flatten

/-- Embedding of `sha256` (index.ts lines 66-123). -/
def sha256 (data : List Nat) : List Nat := sha256core (padCode data)

/-- Modelled from the spec: standard SHA-256 — the same pipeline over the
standard padding with the 64-bit length field. -/
def sha256spec (data : List Nat) : List Nat := sha256core (padSpec data)

set_option maxRecDepth 8000 in
example :
    sha256 [] =
      [0xe3, 0xb0, 0xc4, 0x42, 0x98, 0xfc, 0x1c, 0x14,
       0x9a, 0xfb, 0xf4, 0xc8, 0x99, 0x6f, 0xb9, 0x24,
       0x27, 0xae, 0x41, 0xe4, 0x64, 0x9b, 0x93, 0x4c,
       0xa4, 0x95, 0x99, 0x1b, 0x78, 0x52, 0xb8, 0x55] := by decide

theorem toBE_zero (k : Nat) : toBE k 0 = List.replicate k 0 := by
  induction k with
  | zero => rfl
  | succ k ih =>
    rw [toBE, Nat.zero_div, ih, Nat.zero_mod, ← List.replicate_succ']

theorem toBE_add_zero (k : Nat) : ∀ (w n : Nat), n < 256 ^ w →
    toBE (k + w) n = List.replicate k 0 ++ toBE w n := by
  intro w
  induction w generalizing k with
  | zero =>
    intro n hn
    have : n = 0 := by simpa using hn
    subst this
    rw [toBE_zero]
    simp [toBE]
  | succ w ih =>
    intro n hn
    have hdiv : n / 256 < 256 ^ w := by
      rw [Nat.div_lt_iff_lt_mul (by omega)]
      calc n < 256 ^ (w + 1) := hn
        _ = 256 ^ w * 256 := by rw [pow_succ]
    rw [show k + (w + 1) = (k + w) + 1 from by omega, toBE, ih k _ hdiv, toBE,
      List.append_assoc]

theorem padTotalLen_ge (len : Nat) : len + 9 ≤ padTotalLen len := by
  unfold padTotalLen
  omega

/-- Whenever the message is shorter than 2^29 bytes (bit length below
2^32), the code's padding coincides with the standard padding, hence so do
the digests (see `sha256_eq_spec_of_small`). -/
theorem pad_eq_of_small (data : List Nat) (h : data.length * 8 < 4294967296) :
    padCode data = padSpec data := by
  unfold padCode padSpec
  have h9 := padTotalLen_ge data.length
  have h8 : toBE 8 (data.length * 8) = List.replicate 4 0 ++ toBE 4 (data.length * 8) :=
    toBE_add_zero 4 4 _ (by norm_num at h ⊢; omega)
  rw [h8, ← List.append_assoc, ← List.replicate_add,
    show padTotalLen data.length - data.length - 9 + 4
      = padTotalLen data.length - data.length - 5 from by omega]

/-- For every input whose bit length fits in 32 bits, the code's `sha256`
agrees with the standard `sha256spec`. -/
theorem sha256_eq_spec_of_small (data : List Nat) (h : data.length * 8 < 4294967296) :
    sha256 data = sha256spec data := by
  unfold sha256 sha256spec
  rw [pad_eq_of_small data h]

/-- C9: at the failing input of 2^29 zero bytes (bit length exactly 2^32),
the code's padded message and the standard one disagree: the code writes
only the low 32 bits of the bit length (`setUint32`), which are zero, so
byte `padTotalLen - 5` of the code's padding is 0 while the standard
64-bit length field has a 1 there — the padded messages differ, so the
code's digest is not the standard SHA-256 digest there. -/
theorem c9_sha256_length_field_bug :
    (padCode (List.replicate 536870912 0)).get? 536870971 = some 0 ∧
    (padSpec (List.replicate 536870912 0)).get? 536870971 = some 1 ∧
    padCode (List.replicate 536870912 0) ≠ padSpec (List.replicate 536870912 0) := by
  have h1 : (padCode (List.replicate 536870912 0)).get? 536870971 = some 0 := by
    unfold padCode
    rw [List.get?_append_right (by rw [List.length_replicate]; omega)]
    simp only [List.length_replicate]
    decide
  have h2 : (padSpec (List.replicate 536870912 0)).get? 536870971 = some 1 := by
    unfold padSpec
    rw [List.get?_append_right (by rw [List.length_replicate]; omega)]
    simp only [List.length_replicate]
    decide
  refine ⟨h1, h2, fun heq => ?_⟩
  rw [heq, h2] at h1
  exact absurd h1 (by decide)

example : normalizeSignatureS (List.replicate 64 0) = .ok (List.replicate 64 0) := by decide

example :
    normalizeSignatureS (List.replicate 32 0 ++ List.replicate 32 0xff) =
      .ok (List.replicate 32 0 ++
        [0xff, 0xff, 0xff, 0xff, 0x00, 0x00, 0x00, 0x00,
         0xff, 0xff, 0xff, 0xff, 0xff, 0xff, 0xff, 0xff,
         0xbc, 0xe6, 0xfa, 0xad, 0xa7, 0x17, 0x9e, 0x84,
         0xf3, 0xb9, 0xca, 0xc2, 0xfc, 0x63, 0x25, 0x52]) := by decide

end LazorKit
